import Mathlib

/-!
Verification of the retention/cleanup logic of `ecr-cleaner` (`main.go`).

The embedding models images as records with a digest, a tag list and a push
timestamp in Unix seconds (the code only ever compares `ImagePushedAt.Unix()`).
Regular-expression matching (`regexp.MatchString`) is abstracted as a total
boolean matcher parameter, and Go's `sort.Sort` — whose documentation
guarantees a permutation ordered by the given `Less` but *not* stability —
is modelled relationally by that documented contract.
-/

/-- Model of `ecr.ImageDetail` as used by `main.go`: digest, tag list, and
push timestamp in Unix seconds (the code compares `ImagePushedAt.Unix()`). -/
structure Image where
  imageDigest : String
  imageTags : List String
  imagePushedAt : Int
deriving DecidableEq, Repr

/-- Model of the `TagFiltering` struct (main.go lines 17-21). -/
structure TagFiltering where
  regExp : String
  action : String
deriving DecidableEq, Repr

/-- Abstract regular-expression matcher: `m pattern s` models
`regexp.MatchString(pattern, s)` succeeding with a match. -/
abbrev Matcher := String → String → Bool

/-- Model of Go `strings.Contains s sub`: `sub` occurs as a contiguous
substring of `s`. -/
def strContains (s sub : String) : Bool :=
  decide (sub.toList <:+: s.toList)

/-- Model of `separateHavingTag` (main.go lines 191-201): split an image list into
(imagesWithoutTag, imagesWithTag), appending each image to one of the two
accumulators according to `len(image.ImageTags) == 0`. -/
def separateHavingTag (images : List Image) : List Image × List Image :=
  images.foldl
    (fun acc image =>
      if image.imageTags.length = 0 then (acc.1 ++ [image], acc.2)
      else (acc.1, acc.2 ++ [image]))
    ([], [])

/-- Whether some tag of `image` matches the pattern: the inner loop of
`filterTags` (main.go lines 136-145), which breaks at the first match. -/
def tagMatches (m : Matcher) (tagRE : String) (image : Image) : Bool :=
  image.imageTags.any (fun tag => m tagRE tag)

/-- One iteration of the `filterTags` loop body (main.go lines 135-149):
append to the matched list if some tag matches, then append to the
unmatched list unless the *last* element of the matched list has the same
digest as the current image. -/
def filterTagsStep (m : Matcher) (tagRE : String)
    (acc : List Image × List Image) (image : Image) : List Image × List Image :=
  let withRE := if tagMatches m tagRE image then acc.1 ++ [image] else acc.1
  let lastDiff : Bool :=
    match withRE.getLast? with
    | none => true
    | some last => last.imageDigest != image.imageDigest
  let woRE := if lastDiff then acc.2 ++ [image] else acc.2
  (withRE, woRE)

/-- Model of `filterTags` (main.go lines 129-151): empty pattern returns the input
as matched and an empty unmatched list; otherwise the accumulator loop. -/
def filterTags (m : Matcher) (images : List Image) (tagRE : String) :
    List Image × List Image :=
  if tagRE = "" then (images, [])
  else images.foldl (filterTagsStep m tagRE) ([], [])

/-- The `Less` of the `byTime` sort order (main.go line 181):
`p[i].ImagePushedAt.Unix() < p[j].ImagePushedAt.Unix()`. -/
def byTimeLess (a b : Image) : Bool :=
  decide (a.imagePushedAt < b.imagePushedAt)

/-- Documented contract of `sort.Sort(byTime ...)` (main.go line 92): the
output is a permutation of the input in which no later element is `Less`
than an earlier one. Go's `sort.Sort` does NOT guarantee stability, so the
contract is a relation, not a function. -/
def SortGoContract (input output : List Image) : Prop :=
  output.Perm input ∧ output.Pairwise (fun a b => byTimeLess b a = false)

/-- Insert into a sorted-by-time list, keeping earlier-inserted equals first. -/
def insertByTime (a : Image) : List Image → List Image
  | [] => [a]
  | b :: l =>
    if a.imagePushedAt ≤ b.imagePushedAt then a :: b :: l
    else b :: insertByTime a l

/-- Stable ascending sort by push timestamp, written from the spec's words
("sort candidates ascending by push timestamp; ties broken by original
input order"), for comparison against the code's `sort.Sort` contract. -/
def stableSortByTimeSpec : List Image → List Image
  | [] => []
  | x :: xs => insertByTime x (stableSortByTimeSpec xs)

/-- Model of `imagesToRemove` (main.go lines 184-189) with Go's `int` modelled as
`Int`. The Go body slices `images[0 : len(images)-amountToKeep]`, which
panics when the upper bound is negative or exceeds `len(images)`; the
panic is modelled as `none`. -/
def imagesToRemove (images : List Image) (amountToKeep : Int) :
    Option (List Image) :=
  if (images.length : Int) < amountToKeep then some []
  else
    let hi : Int := (images.length : Int) - amountToKeep
    if 0 ≤ hi ∧ hi ≤ (images.length : Int) then some (images.take hi.toNat)
    else none

/-- The tagged-candidate list of `cleanupImages` (main.go lines 76-86):
partition off untagged images, filter the tagged ones by the pattern, then
pick `matched` when `strings.Contains(tagFilter.action, "delete")` and
`unmatched` otherwise. -/
def tagCandidates (m : Matcher) (images : List Image) (tagFilter : TagFiltering) :
    List Image :=
  let imagesWithTag := (separateHavingTag images).2
  let filtered := filterTags m imagesWithTag tagFilter.regExp
  if strContains tagFilter.action "delete" then filtered.1 else filtered.2

/-- The deletion plan built by `cleanupImages` (main.go lines 74-94):
untagged images first, then the retention-selected tagged images, where
the tagged candidates are sorted by `sort.Sort(byTime ...)` — here an
explicit `sortFn` parameter, constrained by `SortGoContract` in theorems.
`none` models the `imagesToRemove` slice panic. -/
def buildPlan (sortFn : List Image → List Image) (m : Matcher)
    (images : List Image) (amountToKeep : Int) (tagFilter : TagFiltering) :
    Option (List Image) :=
  let imagesNoTag := (separateHavingTag images).1
  let sorted := sortFn (tagCandidates m images tagFilter)
  (imagesToRemove sorted amountToKeep).map (fun toRemove => imagesNoTag ++ toRemove)

/-- The chunk sequence of the delete loop (main.go lines 109-118): the
loop issues `deleteImageIDs[i*100:(i+1)*100]` for `i < len/100`, and then
one final call `deleteImageIDs[i*100:]` is always issued. -/
def chunks100 (plan : List Image) : List (List Image) :=
  (List.range (plan.length / 100)).map
      (fun i => (plan.drop (i * 100)).take 100)
    ++ [plan.drop (plan.length / 100 * 100)]

/-- Sequential issuing of delete calls with an outcome oracle: `fail j`
tells whether the `j`-th `deleteImages` call returns an error. Returns the
calls actually issued (the failing call included) and whether the whole
run succeeded; on the first failure no further call is issued
(main.go lines 111-122). -/
def issueCalls (fail : Nat → Bool) : List (List Image) → Nat → List (List Image) × Bool
  | [], _ => ([], true)
  | c :: cs, j =>
    if fail j then ([c], false)
    else
      let r := issueCalls fail cs (j + 1)
      (c :: r.1, r.2)

/-- The delete phase of `cleanupImages` (main.go lines 98-126): on dry-run
report and return success with no calls; on an empty plan return success
with no calls; otherwise issue the chunked delete calls in order, aborting
at the first failure. Result: (delete calls issued, success flag). -/
def deletePhase (fail : Nat → Bool) (plan : List Image) (dryRun : Bool) :
    List (List Image) × Bool :=
  if dryRun then ([], true)
  else if plan.length ≤ 0 then ([], true)
  else issueCalls fail (chunks100 plan) 0

/-- Model of `cleanupImages` (main.go lines 73-127) end to end: build the plan,
then run the delete phase; `none` models the slice panic inside
`imagesToRemove`. -/
def cleanupImages (sortFn : List Image → List Image) (m : Matcher)
    (fail : Nat → Bool) (images : List Image) (dryRun : Bool)
    (amountToKeep : Int) (tagFilter : TagFiltering) :
    Option (List (List Image) × Bool) :=
  (buildPlan sortFn m images amountToKeep tagFilter).map
    (fun plan => deletePhase fail plan dryRun)

/-- ASCII model of Go `strings.ToLower`: lowercase every character.
(Defined over the character list so that it evaluates in the kernel.) -/
def strToLower (s : String) : String :=
  String.mk (s.data.map Char.toLower)

/-- Outcome of the startup validation in `main` (lines 35-46). `fatalRegExp`
and `fatalAction` are the two `log.Fatal` exits; both happen before the ECR
client is even constructed (line 48), hence before any registry API call. -/
inductive StartupResult where
  | fatalRegExp
  | fatalAction
  | proceed (tagFilter : TagFiltering)
deriving DecidableEq, Repr

/-- Startup validation of `main` (main.go lines 35-46): fail if the
tag-regexp does not compile (abstracted as the boolean `tagRECompiles`),
then lowercase the post-filter action and fail unless
`strings.Contains("deletesave", action)` holds. On success the validated
`TagFiltering` is carried into the repository loop. -/
def mainStartup (tagRECompiles : Bool) (tagRE postFilter : String) : StartupResult :=
  if !tagRECompiles then .fatalRegExp
  else
    let action := strToLower postFilter
    if !strContains "deletesave" action then .fatalAction
    else .proceed ⟨tagRE, action⟩

/-- Concrete image used by witnesses: digest `toString n`, one tag, pushed at `n`. -/
def mkImage (n : Nat) : Image := ⟨toString n, ["t"], (n : Int)⟩

/-- Concrete untagged image used by witnesses. -/
def imgU : Image := ⟨"digestU", [], 0⟩

/-- Two concrete images with equal push timestamps and distinct digests. -/
def imgA : Image := ⟨"digestA", ["a"], 5⟩

/-- See `imgA`. -/
def imgB : Image := ⟨"digestB", ["b"], 5⟩

lemma separateHavingTag_foldl (l : List Image) :
    ∀ M U : List Image,
      l.foldl (fun acc image =>
          if image.imageTags.length = 0 then (acc.1 ++ [image], acc.2)
          else (acc.1, acc.2 ++ [image])) (M, U) =
      (M ++ l.filter (fun i => i.imageTags.isEmpty),
       U ++ l.filter (fun i => !i.imageTags.isEmpty)) := by
  induction l with
  | nil => intro M U; simp
  | cons img rest ih =>
    intro M U
    rcases htags : img.imageTags with _ | ⟨t, ts⟩ <;>
      simp only [List.foldl_cons, htags, List.length_nil, List.length_cons,
        if_pos, if_neg, Nat.succ_ne_zero, ite_true, ite_false, reduceIte] <;>
      rw [ih] <;> simp [List.filter_cons, htags]

lemma separateHavingTag_eq_filter (l : List Image) :
    separateHavingTag l =
      (l.filter (fun i => i.imageTags.isEmpty),
       l.filter (fun i => !i.imageTags.isEmpty)) := by
  unfold separateHavingTag
  rw [separateHavingTag_foldl]
  simp

lemma imagesToRemove_neg (images : List Image) (keep : Int) (hneg : keep < 0) :
    imagesToRemove images keep = none := by
  have h0 : (0 : Int) ≤ (images.length : Int) := by positivity
  unfold imagesToRemove
  rw [if_neg (by omega)]
  rw [if_neg (by omega)]

/-- C9: `separateHavingTag` partitions its input into filters by
tag-list emptiness: the untagged output is exactly the input images with an
empty tag list and the tagged output exactly those with a non-empty tag
list, both in input order, so the partition is exhaustive, order-preserving,
decided solely by tag-list emptiness, and the two outputs are disjoint. -/
theorem C9_partitioner_correct (images : List Image) :
    separateHavingTag images =
      (images.filter (fun i => i.imageTags.isEmpty),
       images.filter (fun i => !i.imageTags.isEmpty)) ∧
    ∀ img : Image, img ∈ (separateHavingTag images).1 →
      img ∈ (separateHavingTag images).2 → False := by
  refine ⟨separateHavingTag_eq_filter images, ?_⟩
  intro img h1 h2
  rw [separateHavingTag_eq_filter images] at h1 h2
  simp only [List.mem_filter] at h1 h2
  rw [h1.2] at h2
  exact absurd h2.2 (by simp)

/-- Witness for C9 at a concrete two-image list. -/
theorem C9_witness :
    separateHavingTag [imgU, imgA] = ([imgU], [imgA]) := by
  have h := (C9_partitioner_correct [imgU, imgA]).1
  simpa [imgU, imgA] using h

/-- C6: with the dry-run flag set, `cleanupImages`'s delete phase issues no
delete call and returns success, for every plan and every registry
behaviour; with dry-run clear and an empty plan, it likewise issues no
delete call and returns success. -/
theorem C6_dry_run_and_empty_plan_no_calls :
    (∀ (fail : Nat → Bool) (plan : List Image),
        deletePhase fail plan true = ([], true)) ∧
    (∀ fail : Nat → Bool, deletePhase fail [] false = ([], true)) := by
  exact ⟨fun fail plan => rfl, fun fail => rfl⟩

/-- C5: on a candidate list sorted ascending by push timestamp and a
keep-count `N ≥ 0`: when the list has at most `N` elements the selection is
empty, and when it has `N + k` elements (`k > 0`) the selection is exactly
the first `k` (oldest) candidates — so it has `k` elements, each selected
timestamp is at most every retained timestamp, and the `N` most recent
candidates (the dropped suffix) are the ones not selected. -/
theorem C5_retention_selector (images : List Image) (keep : Int)
    (hkeep : 0 ≤ keep)
    (hsorted : images.Sorted (fun a b => a.imagePushedAt ≤ b.imagePushedAt)) :
    ((images.length : Int) ≤ keep → imagesToRemove images keep = some []) ∧
    (∀ k : Nat, 0 < k → (images.length : Int) = keep + (k : Int) →
      imagesToRemove images keep = some (images.take k) ∧
      (images.take k).length = k ∧
      ∀ x ∈ images.take k, ∀ y ∈ images.drop k, x.imagePushedAt ≤ y.imagePushedAt) := by
  constructor
  · intro hle
    by_cases hlt : (images.length : Int) < keep
    · unfold imagesToRemove
      rw [if_pos hlt]
    · have hlen : (images.length : Int) = keep := by omega
      unfold imagesToRemove
      rw [if_neg hlt, if_pos (by constructor <;> omega)]
      have : ((images.length : Int) - keep).toNat = 0 := by omega
      rw [this, List.take_zero]
  · intro k hk hlen
    have hsel : imagesToRemove images keep = some (images.take k) := by
      unfold imagesToRemove
      rw [if_neg (by omega), if_pos (by constructor <;> omega)]
      have : ((images.length : Int) - keep).toNat = k := by omega
      rw [this]
    refine ⟨hsel, ?_, ?_⟩
    · have hklen : k ≤ images.length := by omega
      simp [List.length_take, hklen]
    · have hp : images.Pairwise (fun a b => a.imagePushedAt ≤ b.imagePushedAt) := hsorted
      rw [← List.take_append_drop k images] at hp
      exact (List.pairwise_append.mp hp).2.2

/-- Witness for C5: two sorted images, keep-count 1, k = 1. -/
theorem C5_witness :
    imagesToRemove [mkImage 0, mkImage 1] 1 = some ([mkImage 0, mkImage 1].take 1) :=
  ((C5_retention_selector [mkImage 0, mkImage 1] 1 (by decide) (by decide)).2
    1 (by decide) (by decide)).1

/-- C10: `imagesToRemove` is in-bounds for every `amountToKeep ≥ 0`; its
guard `len(images) < amountToKeep` does not cover negative keep-counts, so
for a non-empty input and `amountToKeep < 0` the slice upper bound
`len(images) - amountToKeep` exceeds `len(images)` and the access is out of
range (modelled as `none`); the value is reachable through `cleanupImages`,
which receives the unvalidated `--keep` flag (main.go lines 25, 66). -/
theorem C10_negative_keep_out_of_bounds :
    (∀ (images : List Image) (keep : Int), 0 ≤ keep →
        (imagesToRemove images keep).isSome = true) ∧
    (∀ (images : List Image) (keep : Int), images ≠ [] → keep < 0 →
        (images.length : Int) < (images.length : Int) - keep ∧
        imagesToRemove images keep = none) ∧
    (∀ (keep : Int) (sortFn : List Image → List Image), keep < 0 →
        SortGoContract [mkImage 0] (sortFn [mkImage 0]) →
        buildPlan sortFn (fun _ _ => false) [mkImage 0] keep ⟨"", "delete"⟩ = none) := by
  refine ⟨?_, ?_, ?_⟩
  · intro images keep hkeep
    by_cases hlt : (images.length : Int) < keep
    · unfold imagesToRemove
      rw [if_pos hlt]
      rfl
    · unfold imagesToRemove
      rw [if_neg hlt, if_pos (by constructor <;> omega)]
      rfl
  · intro images keep hne hneg
    exact ⟨by omega, imagesToRemove_neg images keep hneg⟩
  · intro keep sortFn hneg hcontract
    have hsingle : sortFn [mkImage 0] = [mkImage 0] :=
      List.perm_singleton.mp hcontract.1
    have hcand : tagCandidates (fun _ _ => false) [mkImage 0] ⟨"", "delete"⟩ =
        [mkImage 0] := by decide
    simp [buildPlan, hcand, hsingle, imagesToRemove_neg _ keep hneg]

/-- Witness for C10 at `keep = 0` and `keep = -1` on a one-image list. -/
theorem C10_witness :
    (imagesToRemove [mkImage 0] 0).isSome = true ∧
    imagesToRemove [mkImage 0] (-1) = none ∧
    buildPlan id (fun _ _ => false) [mkImage 0] (-1) ⟨"", "delete"⟩ = none :=
  ⟨C10_negative_keep_out_of_bounds.1 [mkImage 0] 0 (by decide),
   (C10_negative_keep_out_of_bounds.2.1 [mkImage 0] (-1) (by decide) (by decide)).2,
   C10_negative_keep_out_of_bounds.2.2 (-1) id (by decide) ⟨by decide, by decide⟩⟩

/-- C3 counterexample: the post-filter-action validation accepts `"tesa"`
— a substring of `"deletesave"` — which is neither `"delete"` nor `"save"`,
so "exactly the values delete and save are accepted" is false. -/
theorem C3_counterexample :
    mainStartup true "" "tesa" = .proceed ⟨"", "tesa"⟩ ∧
    strToLower "tesa" ≠ "delete" ∧ strToLower "tesa" ≠ "save" := by
  refine ⟨by decide, by decide, by decide⟩

/-- C3 amended: a non-compiling tag-regexp, or a post-filter-action whose
lowercased value is not a substring of `"deletesave"`, makes `main` exit
fatally during startup validation (main.go lines 35-46) — before the ECR
client is constructed at line 48, hence before any registry API call;
conversely the accepted action values are exactly the case-insensitive
substrings of `"deletesave"` (which include `"delete"` and `"save"`, but
also other strings such as `"tesa"` and the empty string). -/
theorem C3_amended_startup_validation :
    (∀ re pf : String, mainStartup false re pf = .fatalRegExp) ∧
    (∀ re pf : String, strContains "deletesave" (strToLower pf) = false →
        mainStartup true re pf = .fatalAction) ∧
    (∀ re pf : String,
        mainStartup true re pf = .proceed ⟨re, strToLower pf⟩ ↔
        strContains "deletesave" (strToLower pf) = true) ∧
    (∀ re : String, mainStartup true re "delete" = .proceed ⟨re, "delete"⟩ ∧
        mainStartup true re "save" = .proceed ⟨re, "save"⟩) := by
  refine ⟨fun re pf => rfl, ?_, ?_, ?_⟩
  · intro re pf h
    simp [mainStartup, h]
  · intro re pf
    constructor
    · intro h
      by_cases hc : strContains "deletesave" (strToLower pf) = true
      · exact hc
      · rw [Bool.not_eq_true] at hc
        simp [mainStartup, hc] at h
    · intro h
      simp [mainStartup, h]
  · intro re
    constructor
    · have h : strContains "deletesave" (strToLower "delete") = true := by decide
      have h2 : strToLower "delete" = "delete" := by decide
      simp [mainStartup, h, h2, show strContains "deletesave" "delete" = true by decide]
    · have h : strContains "deletesave" (strToLower "save") = true := by decide
      have h2 : strToLower "save" = "save" := by decide
      simp [mainStartup, h, h2, show strContains "deletesave" "save" = true by decide]

/-- Witness for C3 amended: a clearly invalid action value is rejected at
startup, and an invalid regexp is fatal for any action value. -/
theorem C3_witness :
    mainStartup true "" "purge" = .fatalAction ∧
    mainStartup false "(" "delete" = .fatalRegExp :=
  ⟨C3_amended_startup_validation.2.1 "" "purge" (by decide),
   C3_amended_startup_validation.1 "(" "delete"⟩

/-- C4 counterexample: the code sorts with Go's `sort.Sort`, which does not
guarantee stability; for the two equal-timestamp images `imgA, imgB` the
swapped output `[imgB, imgA]` satisfies everything `sort.Sort` guarantees
for `byTime`, yet it is not the stable sort of the input, so "ties keep
their input order" is not a property of the code. -/
theorem C4_counterexample :
    SortGoContract [imgA, imgB] [imgB, imgA] ∧
    [imgB, imgA] ≠ stableSortByTimeSpec [imgA, imgB] := by
  exact ⟨⟨by decide, by decide⟩, by decide⟩

/-- C4 amended: every output `sort.Sort(byTime ...)` may produce is a
permutation of the candidates ordered ascending by push timestamp (in Unix
seconds, which is what `byTime.Less` compares); the order of candidates
with equal timestamps is left unspecified, since `sort.Sort` is not stable. -/
theorem C4_amended_sort_ascending (input output : List Image)
    (h : SortGoContract input output) :
    output.Perm input ∧
    List.Sorted (fun a b : Image => a.imagePushedAt ≤ b.imagePushedAt) output := by
  refine ⟨h.1, ?_⟩
  refine h.2.imp ?_
  intro a b hab
  simp only [byTimeLess, decide_eq_false_iff_not, not_lt] at hab
  exact hab

/-- Witness discharging the contract hypothesis of the C4 amended theorem
on a singleton list. -/
theorem C4_witness :
    ([imgA] : List Image).Perm [imgA] ∧
    List.Sorted (fun a b : Image => a.imagePushedAt ≤ b.imagePushedAt) [imgA] :=
  C4_amended_sort_ascending [imgA] [imgA] ⟨by decide, by decide⟩

lemma filterTags_foldl (m : Matcher) (tagRE : String) :
    ∀ (images M U : List Image),
      images.Pairwise (fun a b => a.imageDigest ≠ b.imageDigest) →
      (∀ last, M.getLast? = some last →
        ∀ img ∈ images, last.imageDigest ≠ img.imageDigest) →
      images.foldl (filterTagsStep m tagRE) (M, U) =
        (M ++ images.filter (tagMatches m tagRE),
         U ++ images.filter (fun i => !tagMatches m tagRE i)) := by
  intro images
  induction images with
  | nil => intro M U _ _; simp
  | cons img rest ih =>
    intro M U hdist hinv
    have hhead : ∀ b ∈ rest, img.imageDigest ≠ b.imageDigest :=
      (List.pairwise_cons.mp hdist).1
    have htail : rest.Pairwise (fun a b => a.imageDigest ≠ b.imageDigest) :=
      (List.pairwise_cons.mp hdist).2
    rw [List.foldl_cons]
    by_cases hm : tagMatches m tagRE img = true
    · have hstep : filterTagsStep m tagRE (M, U) img = (M ++ [img], U) := by
        simp [filterTagsStep, hm, List.getLast?_concat]
      have hinv2 : ∀ last, (M ++ [img]).getLast? = some last →
          ∀ r ∈ rest, last.imageDigest ≠ r.imageDigest := by
        intro last hlast r hr
        rw [List.getLast?_concat] at hlast
        injection hlast with hx
        subst hx
        exact hhead r hr
      rw [hstep, ih (M ++ [img]) U htail hinv2]
      simp [List.filter_cons, hm, List.append_assoc]
    · have hm2 : tagMatches m tagRE img = false := by
        rwa [Bool.not_eq_true] at hm
      have hstep : filterTagsStep m tagRE (M, U) img = (M, U ++ [img]) := by
        rcases hM : M.getLast? with _ | last
        · simp [filterTagsStep, hm2, hM]
        · have hne : last.imageDigest ≠ img.imageDigest :=
            hinv last hM img (List.mem_cons_self img rest)
          simp [filterTagsStep, hm2, hM, bne_iff_ne, hne]
      have hinv3 : ∀ last, M.getLast? = some last →
          ∀ r ∈ rest, last.imageDigest ≠ r.imageDigest := by
        intro last hlast r hr
        exact hinv last hlast r (List.mem_cons_of_mem img hr)
      rw [hstep, ih M (U ++ [img]) htail hinv3]
      simp [List.filter_cons, hm2, List.append_assoc]

/-- C2: on a tagged-image list with pairwise-distinct digests, `filterTags`
with the empty pattern returns the whole input as matched and an empty
unmatched list; with a non-empty pattern the matched output is exactly the
input images having some matching tag and the unmatched output exactly
those having none, both in input order — so every input image lands in
exactly one of the two outputs. (The last-appended-digest comparison at
main.go line 146 behaves as true membership under the distinctness
hypothesis.) -/
theorem C2_filterTags_partition (m : Matcher) (images : List Image) (tagRE : String)
    (hdist : images.Pairwise (fun a b => a.imageDigest ≠ b.imageDigest)) :
    (tagRE = "" → filterTags m images tagRE = (images, [])) ∧
    (tagRE ≠ "" → filterTags m images tagRE =
      (images.filter (tagMatches m tagRE),
       images.filter (fun i => !tagMatches m tagRE i))) := by
  constructor
  · intro h
    simp [filterTags, h]
  · intro h
    unfold filterTags
    rw [if_neg h]
    have hbase : ∀ last : Image, ([] : List Image).getLast? = some last →
        ∀ img ∈ images, last.imageDigest ≠ img.imageDigest := by
      intro last hlast
      simp at hlast
    have hmain := filterTags_foldl m tagRE images [] [] hdist hbase
    simpa using hmain

/-- Witness for C2 on two distinct-digest images, with a literal-equality
matcher and the pattern "a". -/
theorem C2_witness :
    filterTags (fun p t => p == t) [⟨"d1", ["a"], 0⟩, ⟨"d2", ["b"], 1⟩] "a" =
      ([⟨"d1", ["a"], 0⟩], [⟨"d2", ["b"], 1⟩]) := by
  have h := (C2_filterTags_partition (fun p t => p == t)
      [⟨"d1", ["a"], 0⟩, ⟨"d2", ["b"], 1⟩] "a" (by decide)).2 (by decide)
  rw [h]
  decide

lemma issueCalls_ok (fail : Nat → Bool) :
    ∀ (cs : List (List Image)) (j : Nat),
      (∀ i, j ≤ i → i < j + cs.length → fail i = false) →
      issueCalls fail cs j = (cs, true) := by
  intro cs
  induction cs with
  | nil => intro j h; rfl
  | cons c cs ih =>
    intro j h
    have h0 : fail j = false := h j (le_refl j) (by simp)
    have hrest := ih (j + 1)
      (fun i hi1 hi2 => h i (by omega) (by rw [List.length_cons]; omega))
    unfold issueCalls
    rw [h0]
    simp [hrest]

lemma issueCalls_fail (fail : Nat → Bool) :
    ∀ (cs : List (List Image)) (j k : Nat),
      k < cs.length →
      (∀ i, i < k → fail (j + i) = false) →
      fail (j + k) = true →
      issueCalls fail cs j = (cs.take (k + 1), false) := by
  intro cs
  induction cs with
  | nil => intro j k hk; simp at hk
  | cons c cs ih =>
    intro j k hk hbefore hfail
    cases k with
    | zero =>
      have h0 : fail j = true := by simpa using hfail
      unfold issueCalls
      rw [h0]
      simp
    | succ k =>
      have h0 : fail j = false := by simpa using hbefore 0 (Nat.succ_pos k)
      have hbefore2 : ∀ i, i < k → fail (j + 1 + i) = false := by
        intro i hi
        have := hbefore (i + 1) (by omega)
        rwa [show j + (i + 1) = j + 1 + i by omega] at this
      have hfail2 : fail (j + 1 + k) = true := by
        rwa [show j + (k + 1) = j + 1 + k by omega] at hfail
      have hrest := ih (j + 1) k (by simpa using hk) hbefore2 hfail2
      unfold issueCalls
      rw [h0]
      simp [hrest]

lemma issueCalls_success (fail : Nat → Bool) :
    ∀ (cs : List (List Image)) (j : Nat),
      (issueCalls fail cs j).2 = true →
      ∀ i, i < cs.length → fail (j + i) = false := by
  intro cs
  induction cs with
  | nil => intro j _ i hi; simp at hi
  | cons c cs ih =>
    intro j hs i hi
    by_cases h0 : fail j = true
    · unfold issueCalls at hs
      rw [h0] at hs
      simp at hs
    · have h0' : fail j = false := by rwa [Bool.not_eq_true] at h0
      unfold issueCalls at hs
      rw [h0'] at hs
      simp at hs
      cases i with
      | zero => simpa using h0'
      | succ i =>
        rw [List.length_cons] at hi
        have := ih (j + 1) hs i (by omega)
        rwa [show j + 1 + i = j + (i + 1) by omega] at this

lemma chunks100_join_aux (plan : List Image) :
    ∀ k : Nat,
      ((List.range k).map (fun i => (plan.drop (i * 100)).take 100)).flatten =
        plan.take (k * 100) := by
  intro k
  induction k with
  | zero => simp
  | succ k ih =>
    rw [List.range_succ, List.map_append, List.flatten_append, ih]
    rw [show (k + 1) * 100 = k * 100 + 100 by ring, List.take_add]
    simp

lemma chunks100_flatten (plan : List Image) : (chunks100 plan).flatten = plan := by
  unfold chunks100
  rw [List.flatten_append, chunks100_join_aux]
  simp [List.take_append_drop]

lemma chunks100_length (plan : List Image) :
    (chunks100 plan).length = plan.length / 100 + 1 := by
  simp [chunks100]

lemma deletePhase_live (fail : Nat → Bool) (plan : List Image) (hne : plan ≠ []) :
    deletePhase fail plan false = issueCalls fail (chunks100 plan) 0 := by
  have hl : plan.length ≠ 0 := by
    simpa [List.length_eq_zero] using hne
  simp [deletePhase, Nat.le_zero, hl]

/-- A concrete plan of exactly 100 images, for the C1 counterexample. -/
def plan100 : List Image := (List.range 100).map mkImage

/-- C1 counterexample: for a plan of exactly 100 images (dry-run false, all
calls succeeding) the delete loop issues 2 calls, not ceil(100/100) = 1:
after the loop's single full chunk, the unconditional final call at
main.go line 118 sends the empty slice `deleteImageIDs[100:]`. -/
theorem C1_counterexample :
    plan100 ≠ [] ∧
    (deletePhase (fun _ => false) plan100 false).1.length = 2 ∧
    (plan100.length + 99) / 100 = 1 ∧
    (deletePhase (fun _ => false) plan100 false).1.getLast? = some [] := by
  have hne : plan100 ≠ [] := by
    simp [plan100]
  have hlen : plan100.length = 100 := by
    simp [plan100]
  have hcalls : deletePhase (fun _ => false) plan100 false = (chunks100 plan100, true) := by
    rw [deletePhase_live _ _ hne]
    exact issueCalls_ok _ _ 0 (fun i _ _ => rfl)
  refine ⟨hne, ?_, by rw [hlen], ?_⟩
  · rw [hcalls]
    rw [chunks100_length, hlen]
  · rw [hcalls]
    show (chunks100 plan100).getLast? = some []
    unfold chunks100
    rw [List.getLast?_concat]
    rw [hlen]
    norm_num
    omega

/-- C1 amended: for every non-empty plan of size M processed with dry-run
false and every delete call succeeding, `cleanupImages` issues exactly
floor(M/100) + 1 delete calls; the chunks are consecutive slices of the
plan in order (their concatenation is the plan), every chunk has at most
100 images, every chunk before the last has exactly 100, and the last
call's chunk has M mod 100 images — an empty final call when M is an exact
positive multiple of 100 (the claim's ceil(M/100) count holds only when
100 does not divide M). -/
theorem C1_amended_batching (plan : List Image) (hne : plan ≠ []) :
    (deletePhase (fun _ => false) plan false).2 = true ∧
    (deletePhase (fun _ => false) plan false).1 = chunks100 plan ∧
    (chunks100 plan).length = plan.length / 100 + 1 ∧
    (chunks100 plan).flatten = plan ∧
    (∀ c ∈ chunks100 plan, c.length ≤ 100) ∧
    (∀ c ∈ (chunks100 plan).dropLast, c.length = 100) ∧
    (chunks100 plan).getLast? = some (plan.drop (plan.length / 100 * 100)) ∧
    (plan.drop (plan.length / 100 * 100)).length = plan.length % 100 := by
  have hcalls : deletePhase (fun _ => false) plan false = (chunks100 plan, true) := by
    rw [deletePhase_live _ _ hne]
    exact issueCalls_ok _ _ 0 (fun i _ _ => rfl)
  have hdivle : plan.length / 100 * 100 ≤ plan.length := Nat.div_mul_le_self _ _
  refine ⟨by rw [hcalls], by rw [hcalls], chunks100_length plan, chunks100_flatten plan,
    ?_, ?_, ?_, ?_⟩
  · intro c hc
    unfold chunks100 at hc
    rw [List.mem_append] at hc
    rcases hc with hc | hc
    · rcases List.mem_map.mp hc with ⟨i, _, rfl⟩
      exact (List.length_take_le _ _)
    · rw [List.mem_singleton] at hc
      subst hc
      rw [List.length_drop]
      have := Nat.div_add_mod plan.length 100
      have hmod : plan.length % 100 < 100 := Nat.mod_lt _ (by norm_num)
      omega
  · intro c hc
    unfold chunks100 at hc
    rw [List.dropLast_concat] at hc
    rcases List.mem_map.mp hc with ⟨i, hi, rfl⟩
    rw [List.mem_range] at hi
    have hle : (i + 1) * 100 ≤ plan.length / 100 * 100 :=
      Nat.mul_le_mul_right _ hi
    rw [List.length_take, List.length_drop]
    omega
  · unfold chunks100
    rw [List.getLast?_concat]
  · rw [List.length_drop]
    have := Nat.div_add_mod plan.length 100
    omega

/-- Witness for C1 amended on a one-image plan: one call, the whole plan. -/
theorem C1_witness :
    (deletePhase (fun _ => false) [mkImage 0] false).1 = chunks100 [mkImage 0] ∧
    (chunks100 [mkImage 0]).length = [mkImage 0].length / 100 + 1 :=
  ⟨(C1_amended_batching [mkImage 0] (by decide)).2.1,
   (C1_amended_batching [mkImage 0] (by decide)).2.2.1⟩

/-- C7: with dry-run false and a non-empty plan, if the `j`-th delete call
fails then `cleanupImages` returns an error having issued exactly the
first `j+1` chunk calls — the failing one and nothing after it, with no
compensating action for the earlier chunks (the issued-call trace is a
prefix of the chunk list and is not revisited); and it returns success
only if every chunk's delete call succeeds. -/
theorem C7_abort_on_failure (plan : List Image) (fail : Nat → Bool)
    (hne : plan ≠ []) :
    (∀ j, j < (chunks100 plan).length →
      (∀ i, i < j → fail i = false) → fail j = true →
      deletePhase fail plan false = ((chunks100 plan).take (j + 1), false)) ∧
    ((deletePhase fail plan false).2 = true →
      ∀ i, i < (chunks100 plan).length → fail i = false) := by
  constructor
  · intro j hj hbefore hfail
    rw [deletePhase_live _ _ hne]
    exact issueCalls_fail fail (chunks100 plan) 0 j hj
      (fun i hi => by simpa using hbefore i hi) (by simpa using hfail)
  · intro hs i hi
    rw [deletePhase_live _ _ hne] at hs
    simpa using issueCalls_success fail (chunks100 plan) 0 hs i hi

/-- Witness for C7: a one-image plan whose single delete call fails. -/
theorem C7_witness :
    deletePhase (fun _ => true) [mkImage 0] false =
      ((chunks100 [mkImage 0]).take 1, false) :=
  (C7_abort_on_failure [mkImage 0] (fun _ => true) (by decide)).1 0 (by decide)
    (fun i hi => absurd hi (Nat.not_lt_zero i)) rfl

/-- C8: whenever `cleanupImages` produces a deletion plan (i.e. the
retention slice does not panic), every untagged image of the repository is
in the plan — regardless of keep-count, tag pattern, matcher, sort order
and post-filter action — and the plan is exactly the untagged images (in
input order) followed by the retention-selected tagged images. -/
theorem C8_untagged_always_deleted (sortFn : List Image → List Image)
    (m : Matcher) (images : List Image) (keep : Int)
    (tagFilter : TagFiltering) (plan : List Image)
    (h : buildPlan sortFn m images keep tagFilter = some plan) :
    (∀ img ∈ images, img.imageTags = [] → img ∈ plan) ∧
    ∃ sel, plan = images.filter (fun i => i.imageTags.isEmpty) ++ sel ∧
      imagesToRemove (sortFn (tagCandidates m images tagFilter)) keep = some sel := by
  simp only [buildPlan] at h
  rcases hrem : imagesToRemove (sortFn (tagCandidates m images tagFilter)) keep
    with _ | sel
  · rw [hrem] at h
    simp at h
  · rw [hrem] at h
    simp at h
    have hplan : plan = images.filter (fun i => i.imageTags.isEmpty) ++ sel := by
      rw [← h, separateHavingTag_eq_filter]
    refine ⟨?_, sel, hplan, rfl⟩
    intro img himg htags
    rw [hplan]
    refine List.mem_append_left sel ?_
    exact List.mem_filter.mpr ⟨himg, by simp [htags]⟩

/-- Witness for C8: a concrete two-image repository, keep-count 0, empty
pattern, delete action; the plan is untagged-first and the selection is
the tagged image. -/
theorem C8_witness : imgU ∈ ([imgU, imgA] : List Image) :=
  (C8_untagged_always_deleted id (fun _ _ => false) [imgU, imgA] 0
    ⟨"", "delete"⟩ [imgU, imgA] (by decide)).1 imgU (by decide) (by decide)
